import Mathlib

/-!
Verification of the purewin analyze package: the concurrent tree scanner,
size aggregation pass, fuzzy matcher and bounded top-K search of
internal/analyze (scanner.go and the search half of the package).

Pure functions (fuzzyMatch, longPath, the heap driving SearchTreeBounded,
calculateSizes, addWarning) are embedded directly.  Filesystem access is
abstracted into an explicit filesystem-snapshot value, and the concurrent
per-subdirectory tasks of scanDir are sequentialised (each spawned task is
joined by its spawner before it returns, so the produced tree and the set
of visited entries are those of the sequential order; only the interleaving
of warnings across unrelated subtrees is scheduling-dependent in Go, and no
theorem below depends on that interleaving).
-/

namespace Purewin

/-! ## Fuzzy matcher (fuzzyMatch) -/

/-- Models the per-rune lowercasing done by strings.ToLower on the two
arguments of fuzzyMatch.  Go maps every rune through the Unicode lowering
table; the table is elided here and the ASCII portion (Char.toLower) is
used.  No theorem below depends on which per-rune map is applied. -/
def toLowerRune (c : Char) : Char := c.toLower

/-- The separator runes that fuzzyMatch's start-of-word bonus checks for
in the previous candidate rune. -/
def isSep (c : Char) : Bool :=
  c = '/' || c = '\\' || c = '.' || c = '_' || c = '-'

/-- Start-of-word test of fuzzyMatch: index 0 (there is no previous rune)
or the previous rune is a separator. -/
def wordStart : Option Char → Bool
  | none => true
  | some c => isSep c

/-- The scanning loop of fuzzyMatch: walks the lowercased candidate runes,
greedily consuming pattern runes in order.  Returns the number of pattern
runes consumed together with the accumulated score.  prev is the previous
candidate rune (none at index 0); prevMatch records whether the previous
candidate rune was consumed as a match. -/
def fuzzyCore : List Char → List Char → Option Char → Bool → Nat × Nat
  | _, [], _, _ => (0, 0)
  | [], _ :: _, _, _ => (0, 0)
  | c :: s, pc :: p, prev, prevMatch =>
    if c = pc then
      let bonus := 1 + (if prevMatch then 2 else 0) + (if wordStart prev then 3 else 0)
      let r := fuzzyCore s p (some c) true
      (r.1 + 1, r.2 + bonus)
    else
      let r := fuzzyCore s (pc :: p) (some c) false
      (r.1, r.2)

/-- fuzzyMatch from the source: true iff all pattern runes appear in the
candidate in order (case-insensitive), plus a quality score. -/
def fuzzyMatch (str pattern : String) : Bool × Nat :=
  let strRunes := str.data.map toLowerRune
  let patRunes := pattern.data.map toLowerRune
  if patRunes.length = 0 then (true, 0)
  else if patRunes.length > strRunes.length then (false, 0)
  else
    let r := fuzzyCore strRunes patRunes none false
    (decide (r.1 = patRunes.length), r.2)

/-- The candidate indices at which the greedy scan of fuzzyCore consumes a
pattern rune, offset by i (the index of the head of the first argument
within the full candidate). -/
def greedyPositions : List Char → List Char → Nat → List Nat
  | _, [], _ => []
  | [], _ :: _, _ => []
  | c :: s, pc :: p, i =>
    if c = pc then i :: greedyPositions s p (i + 1)
    else greedyPositions s (pc :: p) (i + 1)

/-- The award the specification assigns to one matched character at index
pos of the lowercased candidate s, relative to the full set P of matched
indices: +1 always, +2 when the immediately preceding index also matched,
+3 when pos starts a word (index 0 or after a separator). -/
def charAward (s : List Char) (P : List Nat) (pos : Nat) : Nat :=
  1 + (if pos ≠ 0 ∧ (pos - 1) ∈ P then 2 else 0)
    + (if pos = 0 ∨ isSep (s.getD (pos - 1) ' ') then 3 else 0)

/-- The specification's additive reading of the score: the sum of the
per-character awards over all greedily matched indices. -/
def specScore (s p : List Char) : Nat :=
  ((greedyPositions s p 0).map (charAward s (greedyPositions s p 0))).sum

/-! ### Fuzzy matcher lemmas -/

theorem fuzzyCore_fst_le (s : List Char) :
    ∀ p prev pm, (fuzzyCore s p prev pm).1 ≤ p.length := by
  induction s with
  | nil => intro p prev pm; cases p <;> simp [fuzzyCore]
  | cons c s ih =>
    intro p prev pm
    cases p with
    | nil => simp [fuzzyCore]
    | cons pc p =>
      by_cases h : c = pc
      · simpa [fuzzyCore, h] using ih p (some c) true
      · simpa [fuzzyCore, h] using ih (pc :: p) (some c) false

theorem sublist_cons_of_eq {c pc : Char} {p s : List Char} (h : c = pc) :
    List.Sublist (pc :: p) (c :: s) ↔ List.Sublist p s := by
  subst h
  constructor
  · intro hs
    cases hs with
    | cons _ hs => exact ((List.sublist_cons_self c p).trans hs)
    | cons₂ _ hs => exact hs
  · intro hs; exact hs.cons₂ c

theorem sublist_cons_of_ne {c pc : Char} {p s : List Char} (h : c ≠ pc) :
    List.Sublist (pc :: p) (c :: s) ↔ List.Sublist (pc :: p) s := by
  constructor
  · intro hs
    cases hs with
    | cons _ hs => exact hs
    | cons₂ _ hs => exact absurd rfl h
  · intro hs; exact hs.cons c

theorem fuzzyCore_fst_eq_iff (s : List Char) :
    ∀ p prev pm, (fuzzyCore s p prev pm).1 = p.length ↔ List.Sublist p s := by
  induction s with
  | nil =>
    intro p prev pm
    cases p with
    | nil => simp [fuzzyCore]
    | cons pc p => simp [fuzzyCore]
  | cons c s ih =>
    intro p prev pm
    cases p with
    | nil => simp [fuzzyCore]
    | cons pc p =>
      by_cases h : c = pc
      · rw [sublist_cons_of_eq h]
        have hih := ih p (some c) true
        have hfst : (fuzzyCore (c :: s) (pc :: p) prev pm).1
            = (fuzzyCore s p (some c) true).1 + 1 := by
          simp [fuzzyCore, h]
        rw [hfst, List.length_cons]
        constructor
        · intro he; exact hih.mp (by omega)
        · intro hs; rw [hih.mpr hs]
      · rw [sublist_cons_of_ne h]
        have := ih (pc :: p) (some c) false
        simpa [fuzzyCore, h] using this

theorem greedyPositions_ge (s : List Char) :
    ∀ p i x, x ∈ greedyPositions s p i → i ≤ x := by
  induction s with
  | nil =>
    intro p i x hx
    cases p <;> simp [greedyPositions] at hx
  | cons c s ih =>
    intro p i x hx
    cases p with
    | nil => simp [greedyPositions] at hx
    | cons pc p =>
      by_cases h : c = pc
      · simp only [greedyPositions, h, if_true, List.mem_cons] at hx
        rcases hx with rfl | hx
        · exact le_refl x
        · exact le_of_lt (lt_of_lt_of_le (Nat.lt_succ_self i) (ih p (i + 1) x hx))
      · simp only [greedyPositions, h, if_false] at hx
        exact le_of_lt (lt_of_lt_of_le (Nat.lt_succ_self i) (ih (pc :: p) (i + 1) x hx))

theorem drop_eq_cons_getD {s₀ s : List Char} {c : Char} {i : Nat}
    (h : s₀.drop i = c :: s) : s₀.getD i ' ' = c ∧ s₀.drop (i + 1) = s := by
  constructor
  · have h0 : s₀[i]? = some c := by
      have := List.getElem?_drop s₀ i 0
      rw [h] at this
      simpa using this.symm
    simp [List.getD_eq_getElem?_getD, h0]
  · have := List.drop_drop 1 i s₀
    rw [h] at this
    simpa [Nat.add_comm] using this.symm

theorem fuzzyCore_snd_eq (s₀ : List Char) (s : List Char) :
    ∀ (p : List Char) (i : Nat) (pm : Bool) (Pre : List Nat),
    s₀.drop i = s →
    pm = decide (i ≠ 0 ∧ (i - 1) ∈ Pre) →
    (∀ x ∈ Pre, x < i) →
    (fuzzyCore s p (if i = 0 then none else some (s₀.getD (i - 1) ' ')) pm).2
      = ((greedyPositions s p i).map (charAward s₀ (Pre ++ greedyPositions s p i))).sum := by
  induction s with
  | nil =>
    intro p i pm Pre _ _ _
    cases p <;> simp [fuzzyCore, greedyPositions]
  | cons c s ih =>
    intro p i pm Pre hdrop hpm hPre
    obtain ⟨hc, hdrop'⟩ := drop_eq_cons_getD hdrop
    cases p with
    | nil => simp [fuzzyCore, greedyPositions]
    | cons pc p =>
      by_cases h : c = pc
      · -- match: consume pc at index i
        have hG : greedyPositions (c :: s) (pc :: p) i
            = i :: greedyPositions s p (i + 1) := by
          simp [greedyPositions, h]
        have hcore : (fuzzyCore (c :: s) (pc :: p)
              (if i = 0 then none else some (s₀.getD (i - 1) ' ')) pm).2
            = (fuzzyCore s p (some c) true).2
              + (1 + (if pm then 2 else 0)
                + (if wordStart (if i = 0 then none else some (s₀.getD (i - 1) ' ')) then 3
                   else 0)) := by
          simp [fuzzyCore, h]
        have hih := ih p (i + 1) true (Pre ++ [i]) hdrop'
          (by
            simp)
          (by
            intro x hx
            rcases List.mem_append.mp hx with hx | hx
            · exact lt_trans (hPre x hx) (Nat.lt_succ_self i)
            · simp at hx; omega)
        have hprev : (if i + 1 = 0 then none else some (s₀.getD (i + 1 - 1) ' '))
            = some c := by
          rw [if_neg (Nat.succ_ne_zero i), Nat.add_sub_cancel, hc]
        rw [hprev, ← List.append_cons] at hih
        rw [hG, hcore, List.map_cons, List.sum_cons, hih]
        have haward : charAward s₀ (Pre ++ i :: greedyPositions s p (i + 1)) i
            = 1 + (if pm then 2 else 0)
              + (if wordStart (if i = 0 then none else some (s₀.getD (i - 1) ' ')) then 3
                 else 0) := by
          unfold charAward
          congr 1
          · congr 1
            subst hpm
            by_cases hi : i = 0
            · simp [hi]
            · have hmemiff : ((i - 1) ∈ Pre ++ i :: greedyPositions s p (i + 1))
                  ↔ (i - 1) ∈ Pre := by
                constructor
                · intro hm
                  rcases List.mem_append.mp hm with hm | hm
                  · exact hm
                  · rcases List.mem_cons.mp hm with hm | hm
                    · omega
                    · have := greedyPositions_ge s p (i + 1) _ hm
                      omega
                · intro hm
                  exact List.mem_append.mpr (Or.inl hm)
              by_cases hmem : (i - 1) ∈ Pre
              · simp [hi, hmem, hmemiff.mpr hmem]
              · simp only [hmemiff]
                simp [hi, hmem]
          · by_cases hi : i = 0
            · simp [hi, wordStart]
            · simp only [hi, if_false]
              simp [wordStart]
        omega
      · -- mismatch at index i
        have hG : greedyPositions (c :: s) (pc :: p) i
            = greedyPositions s (pc :: p) (i + 1) := by
          simp [greedyPositions, h]
        have hcore : (fuzzyCore (c :: s) (pc :: p)
              (if i = 0 then none else some (s₀.getD (i - 1) ' ')) pm).2
            = (fuzzyCore s (pc :: p) (some c) false).2 := by
          simp [fuzzyCore, h]
        have hih := ih (pc :: p) (i + 1) false Pre hdrop'
          (by
            have : i ∉ Pre := fun hm => absurd (hPre i hm) (lt_irrefl i)
            simp [this])
          (by intro x hx; exact lt_trans (hPre x hx) (Nat.lt_succ_self i))
        have hprev : (if i + 1 = 0 then none else some (s₀.getD (i + 1 - 1) ' '))
            = some c := by
          rw [if_neg (Nat.succ_ne_zero i), Nat.add_sub_cancel, hc]
        rw [hprev] at hih
        rw [hG, hcore, hih]

/-- C2: fuzzyMatch's matched flag is true iff the lowercased pattern runes
form a (not necessarily contiguous) subsequence of the lowercased candidate
runes; the empty pattern matches everything with score 0; a pattern with
more runes than the candidate never matches. -/
theorem fuzzyMatch_subsequence_spec (str pattern : String) :
    ((fuzzyMatch str pattern).1 = true ↔
      List.Sublist (pattern.data.map toLowerRune) (str.data.map toLowerRune))
    ∧ fuzzyMatch str "" = (true, 0)
    ∧ (pattern.length > str.length → (fuzzyMatch str pattern).1 = false) := by
  have hpl : pattern.length = pattern.data.length := rfl
  have hsl : str.length = str.data.length := rfl
  refine ⟨?_, rfl, ?_⟩
  · unfold fuzzyMatch
    dsimp only
    split_ifs with hc1 hc2
    · have hnil : pattern.data.map toLowerRune = [] := List.length_eq_zero.mp hc1
      simp [hnil]
    · have hns : ¬ List.Sublist (pattern.data.map toLowerRune)
          (str.data.map toLowerRune) :=
        fun hs => absurd hs.length_le (by omega)
      simp [hns]
    · simp only [decide_eq_true_eq]
      exact fuzzyCore_fst_eq_iff _ _ none false
  · intro hlen
    unfold fuzzyMatch
    dsimp only
    split_ifs with hc1 hc2
    · simp only [List.length_map] at hc1
      omega
    · rfl
    · simp only [List.length_map, gt_iff_lt, not_lt] at hc2
      omega

theorem fuzzyMatch_subsequence_spec_witness :
    "ab".length > "a".length ∧ (fuzzyMatch "a" "ab").1 = false :=
  ⟨by decide, (fuzzyMatch_subsequence_spec "a" "ab").2.2 (by decide)⟩

/-- C4: whenever the matching loop runs (the pattern does not have more
runes than the candidate), the score is the sum over the greedily matched
candidate indices of 1, plus 2 when the immediately preceding index also
matched, plus 3 when the index is 0 or follows a separator rune. -/
theorem fuzzyMatch_score_decomposition (str pattern : String)
    (h : pattern.length ≤ str.length) :
    (fuzzyMatch str pattern).2
      = specScore (str.data.map toLowerRune) (pattern.data.map toLowerRune) := by
  have hpl : pattern.length = pattern.data.length := rfl
  have hsl : str.length = str.data.length := rfl
  unfold fuzzyMatch
  dsimp only
  split_ifs with hc1 hc2
  · have hnil : pattern.data.map toLowerRune = [] := List.length_eq_zero.mp hc1
    simp [hnil, specScore, greedyPositions]
  · simp only [List.length_map, gt_iff_lt] at hc2
    omega
  · have := fuzzyCore_snd_eq (str.data.map toLowerRune) (str.data.map toLowerRune)
      (pattern.data.map toLowerRune) 0 false [] (by simp) (by simp) (by simp)
    simpa [specScore] using this

theorem fuzzyMatch_score_decomposition_witness :
    "log".length ≤ "log.txt".length
    ∧ (fuzzyMatch "log.txt" "log").2
        = specScore ("log.txt".data.map toLowerRune) ("log".data.map toLowerRune) :=
  ⟨by decide, fuzzyMatch_score_decomposition "log.txt" "log" (by decide)⟩

/-- C10: a failed match can still carry a strictly positive score: on
candidate ax and pattern ab the first pattern rune matches (collecting its
award) but the second never does, so fuzzyMatch reports matched = false
with score 4. -/
theorem fuzzyMatch_false_with_positive_score :
    (fuzzyMatch "ax" "ab").1 = false ∧ 0 < (fuzzyMatch "ax" "ab").2 := by
  decide

/-! ## Warnings list (Scanner.addWarning) -/

/-- addWarning from the source: append the message only while the list has
fewer than 500 entries (the mutex around the Go method makes each call
atomic, so a sequence of calls is exactly a fold). -/
def addWarning (warnings : List String) (msg : String) : List String :=
  if warnings.length < 500 then warnings ++ [msg] else warnings

theorem addWarning_foldl (msgs : List String) :
    ∀ w : List String, w.length ≤ 500 →
      msgs.foldl addWarning w = w ++ msgs.take (500 - w.length) := by
  induction msgs with
  | nil => intro w _; simp
  | cons m msgs ih =>
    intro w hw
    by_cases h : w.length < 500
    · have step : addWarning w m = w ++ [m] := if_pos h
      rw [List.foldl_cons, step, ih (w ++ [m]) (by simp; omega)]
      have h5 : 500 - w.length = (500 - (w ++ [m]).length) + 1 := by simp; omega
      rw [h5, List.take_succ_cons, List.append_cons, List.append_assoc]
      simp
    · have hw500 : w.length = 500 := by omega
      have step : addWarning w m = w := if_neg h
      rw [List.foldl_cons, step, ih w hw]
      simp [hw500]

/-- C9: starting from the empty warnings list, any sequence of addWarning
calls yields exactly the first 500 messages in order: the list never
exceeds 500 entries, earlier entries are never removed or reordered (each
call either leaves the list unchanged or appends at the end), and messages
beyond the cap are silently dropped. -/
theorem addWarning_capped_append_only (msgs : List String) :
    msgs.foldl addWarning [] = msgs.take 500
    ∧ (msgs.foldl addWarning []).length ≤ 500
    ∧ (∀ w m, addWarning w m = w ∨ addWarning w m = w ++ [m]) := by
  have h : msgs.foldl addWarning [] = msgs.take 500 := by
    simpa using addWarning_foldl msgs [] (by simp)
  refine ⟨h, ?_, ?_⟩
  · rw [h]
    exact List.length_take_le 500 msgs
  · intro w m
    unfold addWarning
    split_ifs with h
    · exact Or.inr rfl
    · exact Or.inl rfl

/-! ## The scan tree (DirEntry) and the size aggregation pass -/

/-- DirEntry from the source.  The Parent back-reference is omitted: it is
a non-owning pointer used only for upward navigation and no claim below
depends on it. -/
inductive DirEntry where
  | mk : String → String → Int → Bool → List DirEntry → Int → Bool → DirEntry

def DirEntry.path : DirEntry → String
  | .mk p _ _ _ _ _ _ => p

def DirEntry.name : DirEntry → String
  | .mk _ n _ _ _ _ _ => n

def DirEntry.size : DirEntry → Int
  | .mk _ _ s _ _ _ _ => s

def DirEntry.isDir : DirEntry → Bool
  | .mk _ _ _ d _ _ _ => d

def DirEntry.children : DirEntry → List DirEntry
  | .mk _ _ _ _ c _ _ => c

def DirEntry.modTime : DirEntry → Int
  | .mk _ _ _ _ _ t _ => t

def DirEntry.scanned : DirEntry → Bool
  | .mk _ _ _ _ _ _ sc => sc

/-- Strong induction over the scan tree: to prove a property of every
entry it suffices to prove it for an entry assuming it for its children. -/
theorem DirEntry.treeInd {motive : DirEntry → Prop}
    (H : ∀ e, (∀ c ∈ e.children, motive c) → motive e) (e : DirEntry) : motive e :=
  H e (fun c _ => DirEntry.treeInd H c)
termination_by sizeOf e
decreasing_by
  cases e with
  | mk p n sz d cs t sc =>
    rename_i hc
    simp only [DirEntry.children] at hc
    have := List.sizeOf_lt_of_mem hc
    simp
    omega

/-- The comparator of the sort.Slice call in calculateSizes orders by size
strictly descending; sort.Slice is an unstable comparison sort and the
relative order of equal-size siblings is unspecified, so it is modelled by
mergeSort with the corresponding non-strict total order (any order
produced by the Go sort satisfies every theorem below, which only use
sortedness and permutation). -/
def sortBySizeDesc (l : List DirEntry) : List DirEntry :=
  l.mergeSort (fun a b => decide (b.size ≤ a.size))

mutual
/-- calculateSizes from the source, written functionally: a non-directory
is returned unchanged; for a directory every child is aggregated first,
the directory size becomes the sum of the (updated) child sizes, and the
children are sorted by size descending. -/
def calculateSizes : DirEntry → DirEntry
  | .mk p n sz d cs t sc =>
    if d = false then .mk p n sz d cs t sc
    else
      let cs2 := calcChildren cs
      .mk p n ((cs2.map DirEntry.size).sum) d (sortBySizeDesc cs2) t sc

/-- The loop over entry.Children inside calculateSizes. -/
def calcChildren : List DirEntry → List DirEntry
  | [] => []
  | c :: rest => calculateSizes c :: calcChildren rest
end

mutual
/-- Every entry of a scan tree, the root included (preorder). -/
def allEntries : DirEntry → List DirEntry
  | .mk p n sz d cs t sc => .mk p n sz d cs t sc :: allForest cs

/-- Every entry of a forest of scan trees. -/
def allForest : List DirEntry → List DirEntry
  | [] => []
  | c :: rest => allEntries c ++ allForest rest
end

mutual
/-- Shape invariant of trees produced by Scan: only directories carry
children (scanDir attaches children only to directory entries). -/
def wellFormed : DirEntry → Bool
  | .mk _ _ _ d cs _ _ => (d || cs.isEmpty) && wellFormedAll cs

def wellFormedAll : List DirEntry → Bool
  | [] => true
  | c :: rest => wellFormed c && wellFormedAll rest
end

theorem calcChildren_eq_map (l : List DirEntry) :
    calcChildren l = l.map calculateSizes := by
  induction l with
  | nil => rfl
  | cons c rest ih => simp [calcChildren, ih]

theorem mem_allForest {d : DirEntry} (l : List DirEntry) :
    d ∈ allForest l ↔ ∃ c ∈ l, d ∈ allEntries c := by
  induction l with
  | nil => simp [allForest]
  | cons c rest ih => simp [allForest, ih]

theorem wellFormedAll_iff (l : List DirEntry) :
    wellFormedAll l = true ↔ ∀ c ∈ l, wellFormed c = true := by
  induction l with
  | nil => simp [wellFormedAll]
  | cons c rest ih => simp [wellFormedAll, ih]

/-- C3: after the aggregation pass that concludes every completed Scan,
every directory entry's size is the sum of its children's sizes, and every
directory's children are sorted non-increasing by size.  The hypothesis is
the shape invariant of scan output: only directories carry children. -/
theorem calculateSizes_spec (t : DirEntry) (hwf : wellFormed t = true) :
    ∀ d ∈ allEntries (calculateSizes t), d.isDir = true →
      d.size = (d.children.map DirEntry.size).sum
      ∧ d.children.Pairwise (fun a b : DirEntry => b.size ≤ a.size) := by
  induction t using DirEntry.treeInd with
  | H e ih =>
    cases e with
    | mk p n sz dflag cs tt sc =>
      simp only [wellFormed, Bool.and_eq_true, Bool.or_eq_true] at hwf
      have hwfAll : ∀ c ∈ cs, wellFormed c = true := (wellFormedAll_iff cs).mp hwf.2
      intro d hd hdir
      cases dflag with
      | false =>
        have hcs : cs = [] := by
          rcases hwf.1 with h | h
          · exact absurd h (by simp)
          · exact List.isEmpty_iff.mp h
        subst hcs
        simp [calculateSizes, allEntries, allForest] at hd
        subst hd
        simp [DirEntry.isDir] at hdir
      | true =>
        simp only [calculateSizes, if_neg (by simp : ¬ (true = false))] at hd
        simp only [allEntries, List.mem_cons] at hd
        have htrans : ∀ a b c : DirEntry, decide (b.size ≤ a.size) = true →
            decide (c.size ≤ b.size) = true → decide (c.size ≤ a.size) = true := by
          intro a b c h1 h2
          simp only [decide_eq_true_eq] at *
          exact le_trans h2 h1
        have htotal : ∀ a b : DirEntry,
            (decide (b.size ≤ a.size) || decide (a.size ≤ b.size)) = true := by
          intro a b
          simp only [Bool.or_eq_true, decide_eq_true_eq]
          exact le_total b.size a.size
        have hperm : (sortBySizeDesc (calcChildren cs)).Perm (calcChildren cs) :=
          List.mergeSort_perm (calcChildren cs) _
        rcases hd with rfl | hd
        · constructor
          · simp only [DirEntry.size, DirEntry.children]
            exact ((hperm.map DirEntry.size).sum_eq).symm
          · simp only [DirEntry.children]
            have := List.sorted_mergeSort htrans htotal (calcChildren cs)
            exact this.imp (fun h => of_decide_eq_true h)
        · rw [mem_allForest] at hd
          obtain ⟨c', hc', hdc'⟩ := hd
          have hc'2 : c' ∈ calcChildren cs := hperm.mem_iff.mp hc'
          rw [calcChildren_eq_map, List.mem_map] at hc'2
          obtain ⟨c, hc, rfl⟩ := hc'2
          exact ih c (by simpa [DirEntry.children] using hc) (hwfAll c hc) d hdc' hdir

/-- A small well-formed scan tree used to witness the aggregation claim. -/
def sampleTree : DirEntry :=
  .mk "r" "r" 0 true
    [.mk "r/a" "a" 5 false [] 0 true, .mk "r/b" "b" 7 false [] 0 true] 0 false

theorem calculateSizes_spec_witness :
    wellFormed sampleTree = true
    ∧ (∀ d ∈ allEntries (calculateSizes sampleTree), d.isDir = true →
        d.size = (d.children.map DirEntry.size).sum
        ∧ d.children.Pairwise (fun a b : DirEntry => b.size ≤ a.size)) :=
  ⟨by decide, calculateSizes_spec sampleTree (by decide)⟩

/-! ## Path utilities and the scanner over a filesystem snapshot -/

/-- The extended-length path marker used by longPath. -/
def extPfx : String := "\\\\?\\"

/-- strings.ToLower, per rune (see toLowerRune). -/
def strToLower (s : String) : String := ⟨s.data.map toLowerRune⟩

/-- Models strings.HasPrefix via the underlying rune lists. -/
def hasPfx (s pre : String) : Bool := pre.data.isPrefixOf s.data

/-- Models filepath.Clean.  Clean only normalizes separators and dot
segments; every claim below is insensitive to that normalization, so it is
taken as the identity (paths in the snapshots are already clean). -/
def filepathClean (p : String) : String := p

/-- longPath from the source: add the extended-length marker for paths at
or beyond MAX_PATH (260) that do not already carry it.  Go measures len in
bytes; String.length counts runes, which agrees on ASCII paths. -/
def longPath (path : String) : String :=
  if 260 ≤ path.length && !(hasPfx path extPfx) then extPfx ++ filepathClean path
  else path

/-- Models filepath.Join of a directory path and a base name (Windows
separator; Join's cleaning is elided as in filepathClean). -/
def pathJoin (a b : String) : String := a ++ "\\" ++ b

/-- isReparsePoint from the source with the two syscall outcomes made
explicit: utf16Ok is whether UTF16PtrFromString succeeded, attrs the
GetFileAttributes result (none = error).  Bit 0x400 is
FILE_ATTRIBUTE_REPARSE_POINT. -/
def isReparsePoint (utf16Ok : Bool) (attrs : Option Nat) : Bool :=
  if utf16Ok = false then false
  else
    match attrs with
    | none => false
    | some a => decide (Nat.land a 0x400 ≠ 0)

/-- Metadata returned by a successful per-entry Info() / Lstat call. -/
structure FSInfoData where
  size : Int
  modTime : Int
deriving DecidableEq

/-- One node of the filesystem snapshot a scan runs against: base name,
directory flag, the outcomes of the reparse-point syscalls, the outcome of
the per-entry Info() call, and the outcome of ReadDir (none = listing
error; only meaningful for directories). -/
inductive FSNode where
  | mk : String → Bool → Bool → Option Nat → Option FSInfoData → Option (List FSNode) → FSNode

def FSNode.name : FSNode → String
  | .mk n _ _ _ _ _ => n

def FSNode.isDir : FSNode → Bool
  | .mk _ d _ _ _ _ => d

def FSNode.utf16Ok : FSNode → Bool
  | .mk _ _ u _ _ _ => u

def FSNode.attrs : FSNode → Option Nat
  | .mk _ _ _ a _ _ => a

def FSNode.info : FSNode → Option FSInfoData
  | .mk _ _ _ _ i _ => i

def FSNode.listing : FSNode → Option (List FSNode)
  | .mk _ _ _ _ _ l => l

/-- A filesystem call made during scanning, with the exact path string
passed to the OS. -/
inductive FSCall where
  | rootStat : String → FSCall
  | readDir : String → FSCall
  | attrQuery : String → FSCall
deriving DecidableEq

/-- The scanner state threaded through a scan: the warnings list, the
scannedCount counter, and the trace of filesystem calls issued. -/
structure ScanState where
  warnings : List String
  count : Nat
  calls : List FSCall

def addWarningS (st : ScanState) (msg : String) : ScanState :=
  { st with warnings := addWarning st.warnings msg }

/-- NewScanner lowercases every excluded name when building its set. -/
def newScannerExclude (exclude : List String) : List String :=
  exclude.map strToLower

/-- The exclusion lookup of scanDir: the lowercased base name is looked up
in the lowercased exclusion set. -/
def isExcluded (excMap : List String) (name : String) : Bool :=
  excMap.contains (strToLower name)

mutual
/-- scanDir from the source (concurrency sequentialised): list the
directory through longPath, then process each listed entry in order.  A
listing error records a warning and returns no children. -/
def scanDirM (exc : List String) (entryPath : String) (node : FSNode)
    (st : ScanState) : List DirEntry × ScanState :=
  let dirPath := longPath entryPath
  let st1 := { st with calls := st.calls ++ [FSCall.readDir dirPath] }
  match node with
  | .mk _ _ _ _ _ none =>
    ([], addWarningS st1 ("cannot read " ++ entryPath ++ ": error"))
  | .mk _ _ _ _ _ (some entries) => scanEntriesM exc entryPath entries st1

/-- The loop body of scanDir over the listed entries: count the entry,
drop excluded directories, drop reparse-point directories with a warning
(the attribute query is issued for every non-excluded directory, on the
raw joined child path), drop entries whose Info() fails with a warning,
record files as leaves, and recurse into remaining directories. -/
def scanEntriesM (exc : List String) (parentPath : String) (es : List FSNode)
    (st : ScanState) : List DirEntry × ScanState :=
  match es with
  | [] => ([], st)
  | e :: rest =>
    let childPath := pathJoin parentPath e.name
    let st1 := { st with count := st.count + 1 }
    if e.isDir && isExcluded exc e.name then
      scanEntriesM exc parentPath rest st1
    else
      let st2 := if e.isDir then
          { st1 with calls := st1.calls ++ [FSCall.attrQuery childPath] }
        else st1
      if e.isDir && isReparsePoint e.utf16Ok e.attrs then
        scanEntriesM exc parentPath rest
          (addWarningS st2 ("skipping junction/reparse: " ++ childPath))
      else
        match e.info with
        | none =>
          scanEntriesM exc parentPath rest
            (addWarningS st2 ("cannot stat " ++ childPath ++ ": error"))
        | some i =>
          if e.isDir = false then
            let child := DirEntry.mk childPath e.name i.size false [] i.modTime true
            let r := scanEntriesM exc parentPath rest st2
            (child :: r.1, r.2)
          else
            let k := scanDirM exc childPath e st2
            let child := DirEntry.mk childPath e.name 0 true k.1 i.modTime true
            let r := scanEntriesM exc parentPath rest k.2
            (child :: r.1, r.2)
end

def setScanned : DirEntry → DirEntry
  | .mk p n s d c t _ => .mk p n s d c t true

/-- Scan from the source: clean the root path, stat it through longPath
(failure is the only fatal error, modelled by rootFS = none), return a
file root as a leaf immediately, otherwise scan the tree, aggregate sizes
and mark the root scanned. -/
def scanM (exc : List String) (rootPath : String)
    (rootFS : Option (FSNode × FSInfoData)) : Option DirEntry × ScanState :=
  let rp := filepathClean rootPath
  let st1 : ScanState := ⟨[], 0, [FSCall.rootStat (longPath rp)]⟩
  match rootFS with
  | none => (none, st1)
  | some (node, i) =>
    if node.isDir = false then
      (some (.mk rp node.name i.size false [] i.modTime true), st1)
    else
      let r := scanDirM exc rp node st1
      (some (setScanned (calculateSizes (.mk rp node.name 0 true r.1 i.modTime false))),
       r.2)

/-! ### Branch equations of the entry loop -/

theorem scanEntriesM_excluded (exc : List String) (parent : String) (e : FSNode)
    (rest : List FSNode) (st : ScanState)
    (h1 : e.isDir = true) (h2 : isExcluded exc e.name = true) :
    scanEntriesM exc parent (e :: rest) st
      = scanEntriesM exc parent rest { st with count := st.count + 1 } := by
  simp [scanEntriesM, h1, h2]

theorem scanEntriesM_reparse (exc : List String) (parent : String) (e : FSNode)
    (rest : List FSNode) (st : ScanState)
    (h1 : e.isDir = true) (h2 : isExcluded exc e.name = false)
    (h3 : isReparsePoint e.utf16Ok e.attrs = true) :
    scanEntriesM exc parent (e :: rest) st
      = scanEntriesM exc parent rest
          (addWarningS
            { st with
                count := st.count + 1
                calls := st.calls ++ [FSCall.attrQuery (pathJoin parent e.name)] }
            ("skipping junction/reparse: " ++ pathJoin parent e.name)) := by
  simp [scanEntriesM, h1, h2, h3]

theorem scanEntriesM_statFail (exc : List String) (parent : String) (e : FSNode)
    (rest : List FSNode) (st : ScanState)
    (hA : (e.isDir && isExcluded exc e.name) = false)
    (hB : (e.isDir && isReparsePoint e.utf16Ok e.attrs) = false)
    (h4 : e.info = none) :
    scanEntriesM exc parent (e :: rest) st
      = scanEntriesM exc parent rest
          (addWarningS
            (if e.isDir then
              { st with
                  count := st.count + 1
                  calls := st.calls ++ [FSCall.attrQuery (pathJoin parent e.name)] }
             else { st with count := st.count + 1 })
            ("cannot stat " ++ pathJoin parent e.name ++ ": error")) := by
  simp [scanEntriesM, hA, hB, h4]

theorem scanEntriesM_file (exc : List String) (parent : String) (e : FSNode)
    (rest : List FSNode) (st : ScanState) (i : FSInfoData)
    (h1 : e.isDir = false) (h4 : e.info = some i) :
    scanEntriesM exc parent (e :: rest) st
      = (DirEntry.mk (pathJoin parent e.name) e.name i.size false [] i.modTime true
          :: (scanEntriesM exc parent rest { st with count := st.count + 1 }).1,
         (scanEntriesM exc parent rest { st with count := st.count + 1 }).2) := by
  simp [scanEntriesM, h1, h4]

theorem scanEntriesM_dir (exc : List String) (parent : String) (e : FSNode)
    (rest : List FSNode) (st : ScanState) (i : FSInfoData)
    (h1 : e.isDir = true) (h2 : isExcluded exc e.name = false)
    (h3 : isReparsePoint e.utf16Ok e.attrs = false) (h4 : e.info = some i) :
    scanEntriesM exc parent (e :: rest) st
      = (DirEntry.mk (pathJoin parent e.name) e.name 0 true
          (scanDirM exc (pathJoin parent e.name) e
            { st with
                count := st.count + 1
                calls := st.calls ++ [FSCall.attrQuery (pathJoin parent e.name)] }).1
          i.modTime true
          :: (scanEntriesM exc parent rest
              (scanDirM exc (pathJoin parent e.name) e
                { st with
                    count := st.count + 1
                    calls := st.calls
                      ++ [FSCall.attrQuery (pathJoin parent e.name)] }).2).1,
         (scanEntriesM exc parent rest
            (scanDirM exc (pathJoin parent e.name) e
              { st with
                  count := st.count + 1
                  calls := st.calls
                    ++ [FSCall.attrQuery (pathJoin parent e.name)] }).2).2) := by
  simp [scanEntriesM, h1, h2, h3, h4]

def FSNode.childrenOf : FSNode → List FSNode
  | .mk _ _ _ _ _ none => []
  | .mk _ _ _ _ _ (some l) => l

/-- Strong induction over filesystem snapshots. -/
theorem FSNode.snapInd {motive : FSNode → Prop}
    (H : ∀ e, (∀ c ∈ FSNode.childrenOf e, motive c) → motive e) (e : FSNode) :
    motive e :=
  H e (fun c _ => FSNode.snapInd H c)
termination_by sizeOf e
decreasing_by
  cases e with
  | mk nm d u a i l =>
    rename_i hc
    cases l with
    | none => simp [FSNode.childrenOf] at hc
    | some es =>
      simp only [FSNode.childrenOf] at hc
      have := List.sizeOf_lt_of_mem hc
      simp
      omega

theorem scanEntries_no_excluded_aux (exc : List String) (es : List FSNode)
    (ihs : ∀ e ∈ es, ∀ path st d, d ∈ allForest (scanDirM exc path e st).1 →
      d.isDir = true → isExcluded exc d.name = false) :
    ∀ parent st d, d ∈ allForest (scanEntriesM exc parent es st).1 →
      d.isDir = true → isExcluded exc d.name = false := by
  induction es with
  | nil =>
    intro parent st d hd
    simp [scanEntriesM, allForest] at hd
  | cons e rest ih =>
    have ihs' : ∀ e' ∈ rest, ∀ path st d,
        d ∈ allForest (scanDirM exc path e' st).1 →
        d.isDir = true → isExcluded exc d.name = false :=
      fun e' he' => ihs e' (List.mem_cons_of_mem _ he')
    intro parent st d hd hdir
    by_cases hA : (e.isDir && isExcluded exc e.name) = true
    · rw [Bool.and_eq_true] at hA
      obtain ⟨h1, h2⟩ := hA
      rw [scanEntriesM_excluded exc parent e rest st h1 h2] at hd
      exact ih ihs' parent _ d hd hdir
    · have hA' : (e.isDir && isExcluded exc e.name) = false :=
        Bool.not_eq_true _ ▸ eq_false_of_ne_true hA
      by_cases hB : (e.isDir && isReparsePoint e.utf16Ok e.attrs) = true
      · rw [Bool.and_eq_true] at hB
        obtain ⟨h1, h3⟩ := hB
        have h2 : isExcluded exc e.name = false := by simpa [h1] using hA'
        rw [scanEntriesM_reparse exc parent e rest st h1 h2 h3] at hd
        exact ih ihs' parent _ d hd hdir
      · have hB' : (e.isDir && isReparsePoint e.utf16Ok e.attrs) = false :=
          Bool.not_eq_true _ ▸ eq_false_of_ne_true hB
        cases hi : e.info with
        | none =>
          rw [scanEntriesM_statFail exc parent e rest st hA' hB' hi] at hd
          exact ih ihs' parent _ d hd hdir
        | some i =>
          cases hdflag : e.isDir with
          | false =>
            rw [scanEntriesM_file exc parent e rest st i hdflag hi] at hd
            simp only [allForest, allEntries, List.mem_append, List.mem_cons,
              List.not_mem_nil, or_false] at hd
            rcases hd with rfl | hd
            · simp [DirEntry.isDir] at hdir
            · exact ih ihs' parent _ d hd hdir
          | true =>
            have h2 : isExcluded exc e.name = false := by simpa [hdflag] using hA'
            have h3 : isReparsePoint e.utf16Ok e.attrs = false := by
              simpa [hdflag] using hB'
            rw [scanEntriesM_dir exc parent e rest st i hdflag h2 h3 hi] at hd
            simp only [allForest, allEntries, List.mem_append, List.mem_cons] at hd
            rcases hd with (rfl | hd) | hd
            · simpa [DirEntry.name] using h2
            · exact ihs e (List.mem_cons_self e rest) _ _ d hd hdir
            · exact ih ihs' parent _ d hd hdir

/-- No directory with an excluded (case-insensitive) name ever appears in
the forest produced by scanDir. -/
theorem scanDir_no_excluded (exc : List String) (node : FSNode) :
    ∀ path st d, d ∈ allForest (scanDirM exc path node st).1 →
      d.isDir = true → isExcluded exc d.name = false := by
  induction node using FSNode.snapInd with
  | H e ihn =>
    intro path st d hd hdir
    cases e with
    | mk nm dflag u a inf l =>
      cases l with
      | none => simp [scanDirM, allForest] at hd
      | some entries =>
        have heq : scanDirM exc path (.mk nm dflag u a inf (some entries)) st
            = scanEntriesM exc path entries
                { st with calls := st.calls ++ [FSCall.readDir (longPath path)] } := by
          simp [scanDirM]
        rw [heq] at hd
        exact scanEntries_no_excluded_aux exc entries
          (fun e' he' => ihn e' (by simpa [FSNode.childrenOf] using he'))
          path _ d hd hdir

/-- The empty initial scanner state of one Scan call. -/
def stEmpty : ScanState := ⟨[], 0, []⟩

/-- C5: an excluded directory in a listing is dropped entirely: processing
it is exactly the skip to the remaining entries with the observation
counter bumped once (the counter counts every listed entry before the
exclusion check) — no tree entry, no warning, no filesystem call, no
recursion into its contents; and no directory whose name matches the
exclusion set (case-insensitively) ever appears in a scanned forest. -/
theorem excluded_dir_dropped (exc : List String) (parent : String) :
    (∀ (e : FSNode) (rest : List FSNode) (st : ScanState),
        e.isDir = true → isExcluded exc e.name = true →
        scanEntriesM exc parent (e :: rest) st
          = scanEntriesM exc parent rest { st with count := st.count + 1 })
    ∧ (∀ (node : FSNode) (path : String) (st : ScanState) (d : DirEntry),
        d ∈ allForest (scanDirM exc path node st).1 → d.isDir = true →
        isExcluded exc d.name = false) :=
  ⟨fun e rest st h1 h2 => scanEntriesM_excluded exc parent e rest st h1 h2,
   fun node path st d hd hdir => scanDir_no_excluded exc node path st d hd hdir⟩

def exclSample : List String := newScannerExclude ["node_modules"]

def nodeSample : FSNode := .mk "Node_Modules" true true none none (some [])

theorem excluded_dir_dropped_witness :
    nodeSample.isDir = true
    ∧ isExcluded exclSample nodeSample.name = true
    ∧ scanEntriesM exclSample "r" [nodeSample] stEmpty
        = scanEntriesM exclSample "r" [] { stEmpty with count := stEmpty.count + 1 } :=
  ⟨by decide, by decide,
   (excluded_dir_dropped exclSample "r").1 nodeSample [] stEmpty (by decide) (by decide)⟩

/-- A directory entry on which the UTF-16 conversion of the reparse-point
check fails. -/
def reparseFailNode : FSNode := .mk "j" true false none (some ⟨0, 0⟩) (some [])

/-- C7: when reparse-point detection itself fails — the path cannot be
converted to UTF-16, or the attribute query errors — isReparsePoint
returns false, so scanDir treats the entry as not a reparse point and
traverses it like any other directory. -/
theorem isReparsePoint_fail_open :
    (∀ attrs, isReparsePoint false attrs = false)
    ∧ (∀ ok, isReparsePoint ok none = false)
    ∧ (∀ (exc : List String) (parent : String) (e : FSNode) (rest : List FSNode)
        (st : ScanState) (i : FSInfoData),
        e.isDir = true → isExcluded exc e.name = false → e.utf16Ok = false →
        e.info = some i →
        scanEntriesM exc parent (e :: rest) st
          = (DirEntry.mk (pathJoin parent e.name) e.name 0 true
              (scanDirM exc (pathJoin parent e.name) e
                { st with
                    count := st.count + 1
                    calls := st.calls
                      ++ [FSCall.attrQuery (pathJoin parent e.name)] }).1
              i.modTime true
              :: (scanEntriesM exc parent rest
                  (scanDirM exc (pathJoin parent e.name) e
                    { st with
                        count := st.count + 1
                        calls := st.calls
                          ++ [FSCall.attrQuery (pathJoin parent e.name)] }).2).1,
             (scanEntriesM exc parent rest
                (scanDirM exc (pathJoin parent e.name) e
                  { st with
                      count := st.count + 1
                      calls := st.calls
                        ++ [FSCall.attrQuery (pathJoin parent e.name)] }).2).2)) := by
  refine ⟨fun attrs => by simp [isReparsePoint], fun ok => ?_, ?_⟩
  · cases ok <;> simp [isReparsePoint]
  · intro exc parent e rest st i h1 h2 hu h4
    have h3 : isReparsePoint e.utf16Ok e.attrs = false := by
      rw [hu]; simp [isReparsePoint]
    exact scanEntriesM_dir exc parent e rest st i h1 h2 h3 h4

theorem isReparsePoint_fail_open_witness :
    reparseFailNode.isDir = true
    ∧ isExcluded [] reparseFailNode.name = false
    ∧ reparseFailNode.utf16Ok = false
    ∧ (scanEntriesM [] "r" [reparseFailNode] stEmpty).1
        = [DirEntry.mk (pathJoin "r" "j") "j" 0 true
            (scanDirM [] (pathJoin "r" "j") reparseFailNode
              { stEmpty with
                  count := stEmpty.count + 1
                  calls := stEmpty.calls ++ [FSCall.attrQuery (pathJoin "r" "j")] }).1
            0 true] :=
  ⟨rfl, by decide, rfl, by
    rw [isReparsePoint_fail_open.2.2 [] "r" reparseFailNode [] stEmpty ⟨0, 0⟩ rfl
      (by decide) rfl rfl]
    rfl⟩

theorem isPrefixOf_append_self (l t : List Char) : l.isPrefixOf (l ++ t) = true := by
  induction l with
  | nil => cases t <;> rfl
  | cons a l ih => simp [List.isPrefixOf, ih]

theorem longPath_pfx (p : String) (h : 260 ≤ (longPath p).length) :
    hasPfx (longPath p) extPfx = true := by
  unfold longPath at *
  split_ifs at * with hc
  · show extPfx.data.isPrefixOf (extPfx ++ filepathClean p).data = true
    have hdata : (extPfx ++ filepathClean p).data
        = extPfx.data ++ (filepathClean p).data := rfl
    rw [hdata]
    exact isPrefixOf_append_self _ _
  · simp only [Bool.and_eq_true, Bool.not_eq_true', decide_eq_true_eq, not_and] at hc
    by_cases hp : hasPfx p extPfx = true
    · exact hp
    · exact absurd (Bool.not_eq_true _ ▸ hp : hasPfx p extPfx = false) (by
        intro hfalse
        exact absurd hfalse (hc h))

/-- The property C8 ascribes to a recorded filesystem call: a long path is
carried in extended-length form.  Attribute queries are exempt here; the
counterexample below shows they receive the raw joined path. -/
def callLongOk : FSCall → Prop
  | .rootStat p => 260 ≤ p.length → hasPfx p extPfx = true
  | .readDir p => 260 ≤ p.length → hasPfx p extPfx = true
  | .attrQuery _ => True

theorem scanEntries_calls_ok_aux (exc : List String) (es : List FSNode)
    (ihs : ∀ e ∈ es, ∀ path st, (∀ c ∈ st.calls, callLongOk c) →
      ∀ c ∈ (scanDirM exc path e st).2.calls, callLongOk c) :
    ∀ parent st, (∀ c ∈ st.calls, callLongOk c) →
      ∀ c ∈ (scanEntriesM exc parent es st).2.calls, callLongOk c := by
  induction es with
  | nil =>
    intro parent st hst c hc
    exact hst c (by simpa [scanEntriesM] using hc)
  | cons e rest ih =>
    have ihs' : ∀ e' ∈ rest, ∀ path st, (∀ c ∈ st.calls, callLongOk c) →
        ∀ c ∈ (scanDirM exc path e' st).2.calls, callLongOk c :=
      fun e' he' => ihs e' (List.mem_cons_of_mem _ he')
    intro parent st hst c hc
    have hst1 : ∀ c ∈ (st.calls ++ [FSCall.attrQuery (pathJoin parent e.name)]),
        callLongOk c := by
      intro c hc
      rcases List.mem_append.mp hc with hc | hc
      · exact hst c hc
      · simp only [List.mem_singleton] at hc
        subst hc
        trivial
    by_cases hA : (e.isDir && isExcluded exc e.name) = true
    · rw [Bool.and_eq_true] at hA
      rw [scanEntriesM_excluded exc parent e rest st hA.1 hA.2] at hc
      exact ih ihs' parent { st with count := st.count + 1 } hst c hc
    · have hA' : (e.isDir && isExcluded exc e.name) = false :=
        Bool.not_eq_true _ ▸ eq_false_of_ne_true hA
      by_cases hB : (e.isDir && isReparsePoint e.utf16Ok e.attrs) = true
      · rw [Bool.and_eq_true] at hB
        have h2 : isExcluded exc e.name = false := by simpa [hB.1] using hA'
        rw [scanEntriesM_reparse exc parent e rest st hB.1 h2 hB.2] at hc
        exact ih ihs' parent _ (by simpa [addWarningS] using hst1) c hc
      · have hB' : (e.isDir && isReparsePoint e.utf16Ok e.attrs) = false :=
          Bool.not_eq_true _ ▸ eq_false_of_ne_true hB
        cases hi : e.info with
        | none =>
          rw [scanEntriesM_statFail exc parent e rest st hA' hB' hi] at hc
          cases hdflag : e.isDir with
          | false =>
            simp only [hdflag, if_false] at hc
            exact ih ihs' parent _ (by simpa [addWarningS] using hst) c hc
          | true =>
            simp only [hdflag, if_true] at hc
            exact ih ihs' parent _ (by simpa [addWarningS] using hst1) c hc
        | some i =>
          cases hdflag : e.isDir with
          | false =>
            rw [scanEntriesM_file exc parent e rest st i hdflag hi] at hc
            exact ih ihs' parent { st with count := st.count + 1 } hst c hc
          | true =>
            have h2 : isExcluded exc e.name = false := by simpa [hdflag] using hA'
            have h3 : isReparsePoint e.utf16Ok e.attrs = false := by
              simpa [hdflag] using hB'
            rw [scanEntriesM_dir exc parent e rest st i hdflag h2 h3 hi] at hc
            have hk : ∀ c ∈ (scanDirM exc (pathJoin parent e.name) e
                { st with
                    count := st.count + 1
                    calls := st.calls
                      ++ [FSCall.attrQuery (pathJoin parent e.name)] }).2.calls,
                callLongOk c :=
              ihs e (List.mem_cons_self e rest) _ _ hst1
            exact ih ihs' parent _ hk c hc

theorem scanDir_calls_ok (exc : List String) (node : FSNode) :
    ∀ path st, (∀ c ∈ st.calls, callLongOk c) →
      ∀ c ∈ (scanDirM exc path node st).2.calls, callLongOk c := by
  induction node using FSNode.snapInd with
  | H e ihn =>
    intro path st hst c hc
    have hst1 : ∀ c ∈ (st.calls ++ [FSCall.readDir (longPath path)]), callLongOk c := by
      intro c hc
      rcases List.mem_append.mp hc with hc | hc
      · exact hst c hc
      · simp only [List.mem_singleton] at hc
        subst hc
        exact fun hlen => longPath_pfx path hlen
    cases e with
    | mk nm dflag u a inf l =>
      cases l with
      | none =>
        exact hst1 c hc
      | some entries =>
        have heq : scanDirM exc path (.mk nm dflag u a inf (some entries)) st
            = scanEntriesM exc path entries
                { st with calls := st.calls ++ [FSCall.readDir (longPath path)] } := by
          simp [scanDirM]
        rw [heq] at hc
        exact scanEntries_calls_ok_aux exc entries
          (fun e' he' => ihn e' (by simpa [FSNode.childrenOf] using he'))
          path _ hst1 c hc

/-- The 260-character root path used in the long-path scenarios. -/
def longRootPath : String := ⟨List.replicate 260 'a'⟩

def ceChild : FSNode := .mk "b" true true (some 0) (some ⟨0, 0⟩) (some [])

def ceNode : FSNode := .mk "r" true true none none (some [ceChild])

set_option maxRecDepth 40000 in
/-- C8 counterexample: scanning under a 260-character directory issues the
reparse-point attribute query on the raw joined child path, which is at
the path-length ceiling yet carries no extended-length marker — so it is
false that every filesystem call made during scanning rewrites long paths
with the marker. -/
theorem longPath_claim_counterexample :
    FSCall.attrQuery (pathJoin longRootPath "b")
        ∈ (scanDirM [] longRootPath ceNode stEmpty).2.calls
    ∧ 260 ≤ (pathJoin longRootPath "b").length
    ∧ hasPfx (pathJoin longRootPath "b") extPfx = false := by
  refine ⟨?_, by decide, by decide⟩
  decide

/-- C8 amended: every root stat and every directory listing issued by a
scan goes through longPath, so any such call whose path is at or beyond
260 characters carries the extended-length marker; reparse-point attribute
queries are issued on the raw joined path (see the counterexample). -/
theorem longPath_extended_calls (exc : List String) (rootPath : String)
    (rootFS : Option (FSNode × FSInfoData)) :
    ∀ c ∈ (scanM exc rootPath rootFS).2.calls, callLongOk c := by
  intro c hc
  have hroot : ∀ c ∈ [FSCall.rootStat (longPath (filepathClean rootPath))],
      callLongOk c := by
    intro c hc
    simp only [List.mem_singleton] at hc
    subst hc
    exact fun hlen => longPath_pfx _ hlen
  cases rootFS with
  | none => exact hroot c (by simpa [scanM] using hc)
  | some ni =>
    obtain ⟨node, i⟩ := ni
    by_cases hdir : node.isDir = false
    · exact hroot c (by simpa [scanM, hdir] using hc)
    · have hdir' : node.isDir = true := by
        cases h : node.isDir
        · exact absurd h hdir
        · rfl
      have heq : (scanM exc rootPath (some (node, i))).2
          = (scanDirM exc (filepathClean rootPath) node
              ⟨[], 0, [FSCall.rootStat (longPath (filepathClean rootPath))]⟩).2 := by
        simp [scanM, hdir']
      rw [heq] at hc
      exact scanDir_calls_ok exc node _ _ hroot c hc

set_option maxRecDepth 40000 in
theorem longPath_extended_calls_witness :
    FSCall.rootStat (longPath longRootPath) ∈ (scanM [] longRootPath none).2.calls
    ∧ hasPfx (longPath longRootPath) extPfx = true :=
  ⟨by decide,
   longPath_extended_calls [] longRootPath none
     (FSCall.rootStat (longPath longRootPath)) (by decide) (by decide)⟩

/-! ## Bounded top-K search: SearchResult and the min-heap -/

/-- SearchResult from the source: a matched entry and its score
(fuzzyMatch scores are non-negative, so the Go int is a Nat here). -/
structure SearchResult where
  entry : DirEntry
  score : Nat

instance : Inhabited DirEntry := ⟨.mk "" "" 0 false [] 0 false⟩

instance : Inhabited SearchResult := ⟨⟨default, 0⟩⟩

/-- Less of searchHeap: a min-heap ordering on (Score, Entry.Size) —
lowest score first, ties broken by smallest size first. -/
def srLess (a b : SearchResult) : Bool :=
  if a.score ≠ b.score then decide (a.score < b.score)
  else decide (a.entry.size < b.entry.size)

theorem srLess_iff {a b : SearchResult} :
    srLess a b = true
      ↔ (a.score < b.score ∨ (a.score = b.score ∧ a.entry.size < b.entry.size)) := by
  unfold srLess
  split_ifs with h
  · simp only [decide_eq_true_eq]
    omega
  · simp only [decide_eq_true_eq, not_not] at *
    constructor
    · intro hs; exact Or.inr ⟨h, hs⟩
    · intro hs
      rcases hs with hs | hs
      · omega
      · exact hs.2

theorem srLess_false_iff {a b : SearchResult} :
    srLess a b = false
      ↔ (b.score < a.score ∨ (b.score = a.score ∧ b.entry.size ≤ a.entry.size)) := by
  have h := @srLess_iff a b
  constructor
  · intro hf
    have : ¬ (a.score < b.score ∨ (a.score = b.score ∧ a.entry.size < b.entry.size)) := by
      intro hc
      rw [← h] at hc
      rw [hf] at hc
      exact Bool.false_ne_true hc
    push_neg at this
    omega
  · intro hc
    cases hb : srLess a b
    · rfl
    · rw [srLess_iff] at hb
      omega

theorem srLess_irrefl (a : SearchResult) : srLess a a = false := by
  rw [srLess_false_iff]
  omega

theorem srLess_asymm {a b : SearchResult} (h : srLess a b = true) :
    srLess b a = false := by
  rw [srLess_iff] at h
  rw [srLess_false_iff]
  omega

theorem srLess_trans {a b c : SearchResult} (h1 : srLess a b = true)
    (h2 : srLess b c = true) : srLess a c = true := by
  rw [srLess_iff] at *
  omega

theorem srLe_trans {a b c : SearchResult} (h1 : srLess b a = false)
    (h2 : srLess c b = false) : srLess c a = false := by
  rw [srLess_false_iff] at *
  omega

theorem srLe_of_lt_of_le {a b c : SearchResult} (h1 : srLess a b = true)
    (h2 : srLess c b = false) : srLess c a = false := by
  rw [srLess_iff] at h1
  rw [srLess_false_iff] at *
  omega

/-- The Swap of searchHeap (array element exchange). -/
def heapSwap (l : List SearchResult) (i j : Nat) : List SearchResult :=
  (l.set i (l.getD j default)).set j (l.getD i default)

theorem heapSwap_length (l : List SearchResult) (i j : Nat) :
    (heapSwap l i j).length = l.length := by
  simp [heapSwap]

theorem heapSwap_getD (l : List SearchResult) {i j : Nat} (hi : i < l.length)
    (hj : j < l.length) (k : Nat) :
    (heapSwap l i j).getD k default
      = if k = j then l.getD i default
        else if k = i then l.getD j default
        else l.getD k default := by
  unfold heapSwap
  rcases eq_or_ne k j with rfl | hkj
  · simp [List.getD_eq_getElem?_getD, List.getElem?_set, hj]
  · rcases eq_or_ne k i with rfl | hki
    · rw [if_neg hkj, if_pos rfl]
      simp [List.getD_eq_getElem?_getD, List.getElem?_set, hi, Ne.symm hkj]
    · rw [if_neg hkj, if_neg hki]
      simp [List.getD_eq_getElem?_getD, List.getElem?_set, Ne.symm hkj, Ne.symm hki]

theorem set_getD_self (l : List SearchResult) :
    ∀ i, i < l.length → l.set i (l.getD i default) = l := by
  induction l with
  | nil => intro i h; simp at h
  | cons a t ih =>
    intro i h
    cases i with
    | zero => simp
    | succ n =>
      simp only [List.getD_cons_succ, List.set_cons_succ, List.cons.injEq, true_and]
      exact ih n (by simpa using h)

theorem cons_set_perm (x : SearchResult) : ∀ (t : List SearchResult) (m : Nat),
    m < t.length → (t.getD m default :: t.set m x).Perm (x :: t) := by
  intro t
  induction t with
  | nil => intro m h; simp at h
  | cons y t ih =>
    intro m h
    cases m with
    | zero =>
      simp only [List.getD_cons_zero, List.set_cons_zero]
      exact List.Perm.swap x y t
    | succ n =>
      simp only [List.getD_cons_succ, List.set_cons_succ]
      have h' : n < t.length := by simpa using h
      have p1 : (t.getD n default :: y :: t.set n x).Perm
          (y :: t.getD n default :: t.set n x) := List.Perm.swap y (t.getD n default) _
      have p2 : (y :: t.getD n default :: t.set n x).Perm (y :: x :: t) :=
        (ih n h').cons y
      have p3 : (y :: x :: t).Perm (x :: y :: t) := List.Perm.swap x y t
      exact (p1.trans p2).trans p3

theorem heapSwap_perm_lt : ∀ (l : List SearchResult) (i j : Nat), i < j →
    j < l.length → (heapSwap l i j).Perm l := by
  intro l
  induction l with
  | nil => intro i j _ hj; simp at hj
  | cons a t ih =>
    intro i j hij hj
    cases i with
    | zero =>
      cases j with
      | zero => omega
      | succ m =>
        have hm : m < t.length := by simpa using hj
        have : heapSwap (a :: t) 0 (m + 1) = t.getD m default :: t.set m a := by
          simp [heapSwap]
        rw [this]
        exact cons_set_perm a t m hm
    | succ n =>
      cases j with
      | zero => omega
      | succ m =>
        have : heapSwap (a :: t) (n + 1) (m + 1) = a :: heapSwap t n m := by
          simp [heapSwap]
        rw [this]
        exact (ih n m (by omega) (by simpa using hj)).cons a

theorem heapSwap_perm (l : List SearchResult) {i j : Nat} (hi : i < l.length)
    (hj : j < l.length) : (heapSwap l i j).Perm l := by
  rcases lt_trichotomy i j with h | rfl | h
  · exact heapSwap_perm_lt l i j h hj
  · unfold heapSwap
    rw [set_getD_self l i hi, set_getD_self l i hi]
  · unfold heapSwap
    rw [List.set_comm _ _ _ (by omega)]
    exact heapSwap_perm_lt l j i h hi

/-- The child index the sift-down step descends into: the second child
when it exists and compares strictly smaller than the first, else the
first child. -/
def downJ (l : List SearchResult) (i : Nat) : Nat :=
  if 2 * i + 2 < l.length
      && srLess (l.getD (2 * i + 2) default) (l.getD (2 * i + 1) default)
  then 2 * i + 2 else 2 * i + 1

theorem downJ_bounds (l : List SearchResult) (i : Nat) (h1 : 2 * i + 1 < l.length) :
    2 * i + 1 ≤ downJ l i ∧ downJ l i ≤ 2 * i + 2 ∧ downJ l i < l.length := by
  unfold downJ
  split_ifs with hc
  · simp only [Bool.and_eq_true, decide_eq_true_eq] at hc
    omega
  · omega

theorem downJ_child (l : List SearchResult) (i : Nat) :
    downJ l i = 2 * i + 1 ∨ downJ l i = 2 * i + 2 := by
  unfold downJ
  split_ifs <;> omega

/-- The chosen child is minimal among the in-range children of i. -/
theorem downJ_min (l : List SearchResult) (i : Nat) (h1 : 2 * i + 1 < l.length) :
    ∀ c, (c = 2 * i + 1 ∨ c = 2 * i + 2) → c < l.length →
      srLess (l.getD c default) (l.getD (downJ l i) default) = false := by
  intro c hc hcl
  unfold downJ
  split_ifs with hcond
  · simp only [Bool.and_eq_true, decide_eq_true_eq] at hcond
    rcases hc with rfl | rfl
    · exact srLess_asymm hcond.2
    · exact srLess_irrefl _
  · rcases hc with rfl | rfl
    · exact srLess_irrefl _
    · simp only [Bool.and_eq_true, decide_eq_true_eq, not_and_or] at hcond
      rcases hcond with hcond | hcond
      · omega
      · exact Bool.not_eq_true _ ▸ hcond

/-- The sift-down of container/heap (down), specialised to this heap; the
bound n of the Go code is the list length here (Pop passes the shortened
array explicitly below). -/
def down (l : List SearchResult) (i : Nat) : List SearchResult :=
  if h1 : 2 * i + 1 < l.length then
    if srLess (l.getD (downJ l i) default) (l.getD i default) then
      down (heapSwap l i (downJ l i)) (downJ l i)
    else l
  else l
termination_by l.length - i
decreasing_by
  rw [heapSwap_length]
  have := downJ_bounds l i h1
  omega

/-- The sift-up of container/heap (up); Go's loop exit i == j happens
exactly at j = 0. -/
def up (l : List SearchResult) (j : Nat) : List SearchResult :=
  if j = 0 then l
  else
    if srLess (l.getD j default) (l.getD ((j - 1) / 2) default) then
      up (heapSwap l ((j - 1) / 2) j) ((j - 1) / 2)
    else l
termination_by j
decreasing_by
  omega

/-- heap.Push: append, then sift up from the last slot. -/
def heapPush (l : List SearchResult) (x : SearchResult) : List SearchResult :=
  up (l ++ [x]) l.length

/-- heap.Fix at index 0 (up at index 0 is the identity, so Fix reduces to
a sift-down from the root). -/
def heapFix0 (l : List SearchResult) : List SearchResult := down l 0

theorem down_length (l : List SearchResult) (i : Nat) :
    (down l i).length = l.length := by
  rw [down]
  split_ifs with h1 hs
  · rw [down_length, heapSwap_length]
  · rfl
  · rfl
termination_by l.length - i
decreasing_by
  rw [heapSwap_length]
  have := downJ_bounds l i h1
  omega

theorem up_length (l : List SearchResult) (j : Nat) : (up l j).length = l.length := by
  rw [up]
  split_ifs with h1 hs
  · rfl
  · rw [up_length, heapSwap_length]
  · rfl
termination_by j
decreasing_by
  omega

/-- heap.Pop: swap the root with the last slot, sift the shortened array
down from the root, and detach the last slot (the old root, the minimum).
down only ever touches indices below the shortened length, so running it
on the truncated list is the same as Go running it with the explicit
bound n and popping the last slot afterwards. -/
def heapPop (l : List SearchResult) : SearchResult × List SearchResult :=
  let n := l.length - 1
  let l2 := heapSwap l 0 n
  (l2.getD n default, down (l2.take n) 0)

theorem heapPop_snd_length (l : List SearchResult) :
    (heapPop l).2.length = l.length - 1 := by
  unfold heapPop
  rw [down_length, List.length_take, heapSwap_length]
  omega

/-- The drain loop at the end of SearchTreeBounded: pop the heap until it
is empty (ascending order; the source fills its output back-to-front, so
the returned slice is the reverse of this list). -/
def drainHeap (l : List SearchResult) : List SearchResult :=
  match l with
  | [] => []
  | x :: t => (heapPop (x :: t)).1 :: drainHeap (heapPop (x :: t)).2
termination_by l.length
decreasing_by
  rw [heapPop_snd_length (x :: t)]
  simp

/-- The min-heap invariant maintained by container/heap: no child compares
strictly below its parent. -/
def heapProp (l : List SearchResult) : Prop :=
  ∀ p c : Nat, c < l.length → (c = 2 * p + 1 ∨ c = 2 * p + 2) →
    srLess (l.getD c default) (l.getD p default) = false

/-- The heap invariant with the pairs below position i exempted (the state
sift-down starts from). -/
def almostAt (l : List SearchResult) (i : Nat) : Prop :=
  ∀ p c : Nat, c < l.length → (c = 2 * p + 1 ∨ c = 2 * p + 2) → p ≠ i →
    srLess (l.getD c default) (l.getD p default) = false

/-- Children of i compare no lower than i's parent (the extra invariant
carried through the sift-down loop). -/
def grandOK (l : List SearchResult) (i : Nat) : Prop :=
  i ≠ 0 → ∀ c : Nat, c < l.length → (c = 2 * i + 1 ∨ c = 2 * i + 2) →
    srLess (l.getD c default) (l.getD ((i - 1) / 2) default) = false

theorem heapProp_root_min (l : List SearchResult) (hp : heapProp l) :
    ∀ k, k < l.length → srLess (l.getD k default) (l.getD 0 default) = false := by
  intro k
  induction k using Nat.strong_induction_on with
  | _ k ih =>
    intro hk
    rcases Nat.eq_zero_or_pos k with rfl | hk0
    · exact srLess_irrefl _
    · have hchild : k = 2 * ((k - 1) / 2) + 1 ∨ k = 2 * ((k - 1) / 2) + 2 := by omega
      exact srLe_trans (ih ((k - 1) / 2) (by omega) (by omega)) (hp _ k hk hchild)

theorem heapProp_root_min_mem (l : List SearchResult) (hp : heapProp l) :
    ∀ x ∈ l, srLess x (l.getD 0 default) = false := by
  intro x hx
  obtain ⟨k, hk, hkx⟩ := List.mem_iff_getElem.mp hx
  have : l.getD k default = x := by
    rw [List.getD_eq_getElem l default hk, hkx]
  rw [← this]
  exact heapProp_root_min l hp k hk

theorem down_spec (l : List SearchResult) (i : Nat)
    (ha : almostAt l i) (hg : grandOK l i) :
    heapProp (down l i) ∧ (down l i).Perm l := by
  rw [down]
  split_ifs with h1 hs
  · -- swap with the smaller child and continue
    have hi : i < l.length := by omega
    have hjb := downJ_bounds l i h1
    have hjc := downJ_child l i
    have hjmin := downJ_min l i h1
    have hij : i < downJ l i := by omega
    have hjl : downJ l i < l.length := hjb.2.2
    have hswi : (heapSwap l i (downJ l i)).getD i default = l.getD (downJ l i) default := by
      rw [heapSwap_getD l hi hjl, if_neg (Nat.ne_of_lt hij), if_pos rfl]
    have hswj : (heapSwap l i (downJ l i)).getD (downJ l i) default
        = l.getD i default := by
      rw [heapSwap_getD l hi hjl, if_pos rfl]
    have hswo : ∀ k, k ≠ i → k ≠ downJ l i →
        (heapSwap l i (downJ l i)).getD k default = l.getD k default := by
      intro k hk1 hk2
      rw [heapSwap_getD l hi hjl, if_neg hk2, if_neg hk1]
    have hlen : (heapSwap l i (downJ l i)).length = l.length := heapSwap_length l _ _
    have ha' : almostAt (heapSwap l i (downJ l i)) (downJ l i) := by
      intro p c hcl hcc hpj
      rw [hlen] at hcl
      rcases eq_or_ne p i with rfl | hpi
      · rw [hswi]
        rcases eq_or_ne c (downJ l p) with rfl | hcj
        · rw [hswj]
          exact srLess_asymm hs
        · rw [hswo c (by omega) hcj]
          exact hjmin c hcc hcl
      · rcases eq_or_ne c i with rfl | hci
        · have hi0 : c ≠ 0 := by omega
          have hp' : p = (c - 1) / 2 := by omega
          rw [hswi, hswo p hpi (by omega)]
          rw [hp']
          exact hg hi0 (downJ l c) hjl hjc
        · rcases eq_or_ne c (downJ l i) with rfl | hcj
          · exact absurd (by omega : p = i) hpi
          · rw [hswo c hci hcj, hswo p hpi hpj]
            exact ha p c hcl hcc hpi
    have hg' : grandOK (heapSwap l i (downJ l i)) (downJ l i) := by
      intro hj0 c hcl hcc
      rw [hlen] at hcl
      have hparent : (downJ l i - 1) / 2 = i := by omega
      rw [hparent, hswi, hswo c (by omega) (by omega)]
      exact ha (downJ l i) c hcl hcc (by omega)
    have hrec := down_spec (heapSwap l i (downJ l i)) (downJ l i) ha' hg'
    exact ⟨hrec.1, hrec.2.trans (heapSwap_perm l hi hjl)⟩
  · -- the root already compares no higher than the smaller child: done
    refine ⟨?_, List.Perm.refl l⟩
    intro p c hcl hcc
    rcases eq_or_ne p i with rfl | hpi
    · have hle : srLess (l.getD (downJ l p) default) (l.getD p default) = false :=
        Bool.not_eq_true _ ▸ hs
      exact srLe_trans hle (downJ_min l p h1 c hcc hcl)
    · exact ha p c hcl hcc hpi
  · -- no children below i: the exempted pairs are out of range
    refine ⟨?_, List.Perm.refl l⟩
    intro p c hcl hcc
    rcases eq_or_ne p i with rfl | hpi
    · omega
    · exact ha p c hcl hcc hpi
termination_by l.length - i
decreasing_by
  rw [heapSwap_length]
  have := downJ_bounds l i h1
  omega

/-- The heap invariant with only the (parent, j) pair exempted (the state
sift-up starts from after an append). -/
def almostUpAt (l : List SearchResult) (j : Nat) : Prop :=
  ∀ p c : Nat, c < l.length → (c = 2 * p + 1 ∨ c = 2 * p + 2) → c ≠ j →
    srLess (l.getD c default) (l.getD p default) = false

/-- Children of j compare no lower than j's parent (the extra invariant
carried through the sift-up loop). -/
def grandUp (l : List SearchResult) (j : Nat) : Prop :=
  j ≠ 0 → ∀ c : Nat, c < l.length → (c = 2 * j + 1 ∨ c = 2 * j + 2) →
    srLess (l.getD c default) (l.getD ((j - 1) / 2) default) = false

theorem up_spec (l : List SearchResult) (j : Nat) (hjl : j < l.length)
    (ha : almostUpAt l j) (hg : grandUp l j) :
    heapProp (up l j) ∧ (up l j).Perm l := by
  rw [up]
  split_ifs with h0 hs
  · -- j = 0: there is no exempted pair
    subst h0
    refine ⟨?_, List.Perm.refl l⟩
    intro p c hcl hcc
    exact ha p c hcl hcc (by omega)
  · -- the new element compares below its parent: swap and continue
    have hij : (j - 1) / 2 < j := by omega
    have hil : (j - 1) / 2 < l.length := by omega
    have hchild : j = 2 * ((j - 1) / 2) + 1 ∨ j = 2 * ((j - 1) / 2) + 2 := by omega
    have hswi : (heapSwap l ((j - 1) / 2) j).getD ((j - 1) / 2) default
        = l.getD j default := by
      rw [heapSwap_getD l hil hjl, if_neg (Nat.ne_of_lt hij), if_pos rfl]
    have hswj : (heapSwap l ((j - 1) / 2) j).getD j default
        = l.getD ((j - 1) / 2) default := by
      rw [heapSwap_getD l hil hjl, if_pos rfl]
    have hswo : ∀ k, k ≠ (j - 1) / 2 → k ≠ j →
        (heapSwap l ((j - 1) / 2) j).getD k default = l.getD k default := by
      intro k hk1 hk2
      rw [heapSwap_getD l hil hjl, if_neg hk2, if_neg hk1]
    have hlen : (heapSwap l ((j - 1) / 2) j).length = l.length := heapSwap_length l _ _
    have ha' : almostUpAt (heapSwap l ((j - 1) / 2) j) ((j - 1) / 2) := by
      intro p c hcl hcc hci
      rw [hlen] at hcl
      rcases eq_or_ne c j with rfl | hcj
      · have hpi : p = (c - 1) / 2 := by omega
        subst hpi
        rw [hswi, hswj]
        exact srLess_asymm hs
      · rcases eq_or_ne p ((j - 1) / 2) with rfl | hpi
        · rw [hswi, hswo c hci hcj]
          exact srLe_of_lt_of_le hs (ha ((j - 1) / 2) c hcl hcc hcj)
        · rcases eq_or_ne p j with rfl | hpj
          · rw [hswj, hswo c hci hcj]
            exact hg h0 c hcl hcc
          · rw [hswo c hci hcj, hswo p hpi hpj]
            exact ha p c hcl hcc hcj
    have hg' : grandUp (heapSwap l ((j - 1) / 2) j) ((j - 1) / 2) := by
      intro hi0 c hcl hcc
      rw [hlen] at hcl
      have hpp : ((j - 1) / 2 - 1) / 2 ≠ (j - 1) / 2 := by omega
      have hppj : ((j - 1) / 2 - 1) / 2 ≠ j := by omega
      have hiparent : (j - 1) / 2 = 2 * (((j - 1) / 2 - 1) / 2) + 1
          ∨ (j - 1) / 2 = 2 * (((j - 1) / 2 - 1) / 2) + 2 := by omega
      rw [hswo _ hpp hppj]
      rcases eq_or_ne c j with rfl | hcj
      · rw [hswj]
        exact ha _ ((c - 1) / 2) hil hiparent (by omega)
      · rw [hswo c (by omega) hcj]
        exact srLe_trans (ha _ ((j - 1) / 2) hil hiparent (by omega))
          (ha ((j - 1) / 2) c hcl hcc hcj)
    have hrec := up_spec (heapSwap l ((j - 1) / 2) j) ((j - 1) / 2)
      (by omega) ha' hg'
    exact ⟨hrec.1, hrec.2.trans (heapSwap_perm l hil hjl)⟩
  · -- the new element sits no lower than its parent: done
    refine ⟨?_, List.Perm.refl l⟩
    intro p c hcl hcc
    rcases eq_or_ne c j with rfl | hcj
    · have hpi : p = (c - 1) / 2 := by omega
      subst hpi
      exact Bool.not_eq_true _ ▸ hs
    · exact ha p c hcl hcc hcj
termination_by j
decreasing_by
  omega

theorem heapPush_length (l : List SearchResult) (x : SearchResult) :
    (heapPush l x).length = l.length + 1 := by
  unfold heapPush
  rw [up_length]
  simp

theorem getD_append_left (l l' : List SearchResult) (k : Nat) (hk : k < l.length) :
    (l ++ l').getD k default = l.getD k default := by
  rw [List.getD_eq_getElem?_getD, List.getD_eq_getElem?_getD, List.getElem?_append,
    if_pos hk]

theorem heapPush_spec (l : List SearchResult) (x : SearchResult) (hp : heapProp l) :
    heapProp (heapPush l x) ∧ (heapPush l x).Perm (l ++ [x]) := by
  unfold heapPush
  apply up_spec
  · simp
  · intro p c hcl hcc hcj
    simp only [List.length_append, List.length_singleton] at hcl
    have hcn : c < l.length := by omega
    have hpn : p < l.length := by omega
    rw [getD_append_left l [x] c hcn, getD_append_left l [x] p hpn]
    exact hp p c hcn hcc
  · intro h0 c hcl hcc
    simp only [List.length_append, List.length_singleton] at hcl
    omega

theorem set_zero_getD (l : List SearchResult) (y : SearchResult) (k : Nat)
    (hk : k ≠ 0) : (l.set 0 y).getD k default = l.getD k default := by
  rw [List.getD_eq_getElem?_getD, List.getD_eq_getElem?_getD, List.getElem?_set,
    if_neg (fun h => hk h.symm)]

theorem set_zero_almostAt (l : List SearchResult) (y : SearchResult)
    (hp : heapProp l) : almostAt (l.set 0 y) 0 := by
  intro p c hcl hcc hp0
  rw [List.length_set] at hcl
  rw [set_zero_getD l y c (by omega), set_zero_getD l y p hp0]
  exact hp p c hcl hcc

theorem heapFix0_spec (l : List SearchResult) (ha : almostAt l 0) :
    heapProp (heapFix0 l) ∧ (heapFix0 l).Perm l :=
  down_spec l 0 ha (fun h => absurd rfl h)

theorem heapPop_spec (l : List SearchResult) (hl : l ≠ []) (hp : heapProp l) :
    (heapPop l).1 = l.getD 0 default
    ∧ heapProp (heapPop l).2
    ∧ ((heapPop l).1 :: (heapPop l).2).Perm l := by
  have hlen : 0 < l.length := List.length_pos.mpr hl
  have hn : l.length - 1 < l.length := by omega
  have h0 : (0 : Nat) < l.length := hlen
  have hfst : (heapPop l).1 = l.getD 0 default := by
    show (heapSwap l 0 (l.length - 1)).getD (l.length - 1) default = l.getD 0 default
    rw [heapSwap_getD l h0 hn, if_pos rfl]
  have hswo : ∀ k, k ≠ 0 → k ≠ l.length - 1 →
      (heapSwap l 0 (l.length - 1)).getD k default = l.getD k default := by
    intro k hk1 hk2
    rw [heapSwap_getD l h0 hn, if_neg hk2, if_neg hk1]
  have htakeD : ∀ k, k < l.length - 1 →
      ((heapSwap l 0 (l.length - 1)).take (l.length - 1)).getD k default
        = (heapSwap l 0 (l.length - 1)).getD k default := by
    intro k hk
    rw [List.getD_eq_getElem?_getD, List.getD_eq_getElem?_getD,
      List.getElem?_take]
    rw [if_pos hk]
  have halmost : almostAt ((heapSwap l 0 (l.length - 1)).take (l.length - 1)) 0 := by
    intro p c hcl hcc hp0
    rw [List.length_take, heapSwap_length] at hcl
    have hcn : c < l.length - 1 := by omega
    have hpn : p < l.length - 1 := by omega
    rw [htakeD c hcn, htakeD p hpn, hswo c (by omega) (by omega),
      hswo p hp0 (by omega)]
    exact hp p c (by omega) hcc
  have hdown := down_spec ((heapSwap l 0 (l.length - 1)).take (l.length - 1)) 0
    halmost (fun h => absurd rfl h)
  refine ⟨hfst, hdown.1, ?_⟩
  have hdrop : (heapSwap l 0 (l.length - 1)).drop (l.length - 1)
      = [(heapSwap l 0 (l.length - 1)).getD (l.length - 1) default] := by
    have hlen2 : (heapSwap l 0 (l.length - 1)).length = l.length := heapSwap_length l _ _
    have hn2 : l.length - 1 < (heapSwap l 0 (l.length - 1)).length := by omega
    rw [List.drop_eq_getElem_cons hn2]
    have : (heapSwap l 0 (l.length - 1)).drop (l.length - 1 + 1) = [] := by
      apply List.drop_eq_nil_of_le
      omega
    rw [this, List.getD_eq_getElem _ default hn2]
  have hassemble : ((heapSwap l 0 (l.length - 1)).take (l.length - 1)
        ++ [(heapSwap l 0 (l.length - 1)).getD (l.length - 1) default])
      = heapSwap l 0 (l.length - 1) := by
    rw [← hdrop, List.take_append_drop]
  have hgetn : (heapSwap l 0 (l.length - 1)).getD (l.length - 1) default
      = l.getD 0 default := by
    rw [heapSwap_getD l h0 hn, if_pos rfl]
  have hperm1 : ((heapPop l).1 :: (heapPop l).2).Perm
      ((heapPop l).1 :: (heapSwap l 0 (l.length - 1)).take (l.length - 1)) :=
    hdown.2.cons _
  have hperm2 : ((heapPop l).1 :: (heapSwap l 0 (l.length - 1)).take (l.length - 1)).Perm
      ((heapSwap l 0 (l.length - 1)).take (l.length - 1) ++ [(heapPop l).1]) :=
    (List.perm_append_singleton _ _).symm
  have hperm3 : ((heapSwap l 0 (l.length - 1)).take (l.length - 1)
      ++ [(heapPop l).1]).Perm l := by
    rw [hfst, ← hgetn, hassemble]
    exact heapSwap_perm l h0 hn
  exact (hperm1.trans hperm2).trans hperm3

theorem drainHeap_spec (l : List SearchResult) (hp : heapProp l) :
    (drainHeap l).Perm l
    ∧ (drainHeap l).Pairwise (fun a b => srLess b a = false) := by
  match l with
  | [] => simp [drainHeap]
  | x :: t =>
    have hpop := heapPop_spec (x :: t) (by simp) hp
    have hrec := drainHeap_spec (heapPop (x :: t)).2 hpop.2.1
    have hd : drainHeap (x :: t)
        = (heapPop (x :: t)).1 :: drainHeap (heapPop (x :: t)).2 := by
      rw [drainHeap]
    rw [hd]
    constructor
    · exact (hrec.1.cons _).trans hpop.2.2
    · refine List.Pairwise.cons ?_ hrec.2
      intro y hy
      have hy2 : y ∈ (heapPop (x :: t)).2 := hrec.1.mem_iff.mp hy
      have hyl : y ∈ x :: t := hpop.2.2.mem_iff.mp (List.mem_cons_of_mem _ hy2)
      rw [hpop.1]
      exact heapProp_root_min_mem (x :: t) hp y hyl
termination_by l.length
decreasing_by
  rw [heapPop_snd_length]
  simp

/-- The body of the search closure in SearchTreeBounded, applied to one
visited entry: push every match while the heap has spare capacity; once
full, replace the root only when the candidate is strictly better —
higher score, or equal score with larger size. -/
def searchStep (query : String) (maxResults : Int) (h : List SearchResult)
    (e : DirEntry) : List SearchResult :=
  if (fuzzyMatch e.name query).1 then
    if (h.length : Int) < maxResults then
      heapPush h ⟨e, (fuzzyMatch e.name query).2⟩
    else if (h.getD 0 default).score < (fuzzyMatch e.name query).2
        ∨ ((fuzzyMatch e.name query).2 = (h.getD 0 default).score
            ∧ (h.getD 0 default).entry.size < e.size) then
      heapFix0 (h.set 0 ⟨e, (fuzzyMatch e.name query).2⟩)
    else h
  else h

/-- SearchTreeBounded from the source: degenerate inputs yield nil;
otherwise every node strictly below the root is visited in preorder, the
best maxResults results are kept in the min-heap, and the heap is drained
into a slice filled back-to-front (hence the reverse). -/
def SearchTreeBounded (root : Option DirEntry) (query : String)
    (maxResults : Int) : List SearchResult :=
  if query = "" ∨ root.isNone = true ∨ maxResults ≤ 0 then []
  else
    match root with
    | none => []
    | some r =>
      (drainHeap ((allForest r.children).foldl (searchStep query maxResults) [])).reverse

/-- The search result SearchTreeBounded builds for a matching entry. -/
def mkSR (q : String) (e : DirEntry) : SearchResult := ⟨e, (fuzzyMatch e.name q).2⟩

/-- The matching nodes of a search: every node strictly below the root,
in visit order, whose name fuzzy-matches the query. -/
def matchesOf (t : DirEntry) (q : String) : List DirEntry :=
  (allForest t.children).filter (fun e => (fuzzyMatch e.name q).1)

/-- C6: SearchTreeBounded returns the empty result sequence whenever the
query is empty, the root is nil, or maxResults is at most 0. -/
theorem searchTreeBounded_degenerate (root : Option DirEntry) (q : String)
    (k : Int) (h : q = "" ∨ root = none ∨ k ≤ 0) :
    SearchTreeBounded root q k = [] := by
  unfold SearchTreeBounded
  rw [if_pos (by simpa [Option.isNone_iff_eq_none] using h)]

theorem searchTreeBounded_degenerate_witness :
    (("" : String) = "" ∨ (some sampleTree : Option DirEntry) = none ∨ (10 : Int) ≤ 0)
    ∧ SearchTreeBounded (some sampleTree) "" 10 = []
    ∧ SearchTreeBounded (some sampleTree) "x" 0 = [] :=
  ⟨Or.inl rfl,
   searchTreeBounded_degenerate (some sampleTree) "" 10 (Or.inl rfl),
   searchTreeBounded_degenerate (some sampleTree) "x" 0 (Or.inr (Or.inr (by omega)))⟩

theorem srLe_of_lt_of_ge {a b c : SearchResult} (h1 : srLess a b = true)
    (h2 : srLess a c = false) : srLess b c = false := by
  rw [srLess_iff] at h1
  rw [srLess_false_iff] at *
  omega

theorem heapFix0_length (l : List SearchResult) : (heapFix0 l).length = l.length :=
  down_length l 0

theorem perm_cons_swap_append (h0 y : SearchResult) (t D : List SearchResult) :
    (((h0 :: t) ++ D) ++ [y]).Perm ((y :: t) ++ (D ++ [h0])) := by
  have p1 : (((h0 :: t) ++ D) ++ [y]) = h0 :: ((t ++ D) ++ [y]) := by simp
  have p2 : ((y :: t) ++ (D ++ [h0])) = y :: ((t ++ D) ++ [h0]) := by simp
  rw [p1, p2]
  have q1 : ((t ++ D) ++ [y]).Perm (y :: (t ++ D)) := List.perm_append_singleton _ _
  have q2 : ((t ++ D) ++ [h0]).Perm (h0 :: (t ++ D)) := List.perm_append_singleton _ _
  exact ((q1.cons h0).trans (List.Perm.swap y h0 (t ++ D))).trans ((q2.cons y).symm)

theorem searchStep_not_matched (q : String) (k : Int) (h : List SearchResult)
    (e : DirEntry) (hm : (fuzzyMatch e.name q).1 = false) :
    searchStep q k h e = h := by
  unfold searchStep
  rw [if_neg (by simp [hm])]

theorem searchStep_inv_matched (q : String) (k : Int) (hk : 0 < k) (e : DirEntry)
    (ms : List DirEntry) (h : List SearchResult)
    (hm : (fuzzyMatch e.name q).1 = true)
    (hp : heapProp h)
    (hlen : h.length = min k.toNat ms.length)
    (hD : ∃ D, (ms.map (mkSR q)).Perm (h ++ D)
        ∧ ∀ d ∈ D, ∀ x ∈ h, srLess x d = false) :
    heapProp (searchStep q k h e)
    ∧ (searchStep q k h e).length = min k.toNat (ms.length + 1)
    ∧ ∃ D, ((ms ++ [e]).map (mkSR q)).Perm (searchStep q k h e ++ D)
        ∧ ∀ d ∈ D, ∀ x ∈ searchStep q k h e, srLess x d = false := by
  obtain ⟨D, hDperm, hDdom⟩ := hD
  unfold searchStep
  rw [if_pos hm]
  by_cases hfull : (h.length : Int) < k
  · rw [if_pos hfull]
    have hpush := heapPush_spec h (mkSR q e) hp
    have hlt : h.length < k.toNat := by omega
    have hmseq : h.length = ms.length := by omega
    have hDnil : D = [] := by
      have hl := hDperm.length_eq
      simp only [List.length_map, List.length_append] at hl
      have : D.length = 0 := by omega
      exact List.length_eq_zero.mp this
    subst hDnil
    refine ⟨hpush.1, ?_, [], ?_, ?_⟩
    · rw [heapPush_length]
      omega
    · simp only [List.map_append, List.map_cons, List.map_nil, List.append_nil]
      have h1 : (ms.map (mkSR q) ++ [mkSR q e]).Perm ((h ++ []) ++ [mkSR q e]) :=
        hDperm.append_right _
      have h2 : ((h ++ []) ++ [mkSR q e]) = h ++ [mkSR q e] := by simp
      rw [h2] at h1
      exact h1.trans hpush.2.symm
    · intro d hd
      simp at hd
  · rw [if_neg hfull]
    have hlenk : h.length = k.toNat := by omega
    have hmsge : k.toNat ≤ ms.length := by omega
    have hkt : 0 < h.length := by omega
    cases h with
    | nil => simp at hkt
    | cons h0 t =>
      simp only [List.getD_cons_zero, List.set_cons_zero]
      by_cases hbetter : h0.score < (fuzzyMatch e.name q).2
          ∨ ((fuzzyMatch e.name q).2 = h0.score ∧ h0.entry.size < e.size)
      · rw [if_pos hbetter]
        have hcond : srLess h0 (mkSR q e) = true := by
          rw [srLess_iff]
          rcases hbetter with hb | hb
          · exact Or.inl hb
          · exact Or.inr ⟨hb.1.symm, hb.2⟩
        have halm : almostAt ((mkSR q e) :: t) 0 := by
          have := set_zero_almostAt (h0 :: t) (mkSR q e) hp
          simpa using this
        have hfix := heapFix0_spec ((mkSR q e) :: t) halm
        refine ⟨hfix.1, ?_, D ++ [h0], ?_, ?_⟩
        · rw [heapFix0_length]
          simp only [List.length_cons] at hlenk ⊢
          omega
        · simp only [List.map_append, List.map_cons, List.map_nil]
          have h1 : (ms.map (mkSR q) ++ [mkSR q e]).Perm
              (((h0 :: t) ++ D) ++ [mkSR q e]) := hDperm.append_right _
          have h2 : (((h0 :: t) ++ D) ++ [mkSR q e]).Perm
              (((mkSR q e) :: t) ++ (D ++ [h0])) := perm_cons_swap_append _ _ _ _
          have h3 : (((mkSR q e) :: t) ++ (D ++ [h0])).Perm
              (heapFix0 ((mkSR q e) :: t) ++ (D ++ [h0])) :=
            (hfix.2.symm).append_right _
          exact (h1.trans h2).trans h3
        · intro d hd x hx
          have hx2 : x ∈ (mkSR q e) :: t := hfix.2.mem_iff.mp hx
          rcases List.mem_append.mp hd with hdD | hdh0
          · rcases List.mem_cons.mp hx2 with rfl | hxt
            · exact srLe_of_lt_of_ge hcond (hDdom d hdD h0 (List.mem_cons_self _ _))
            · exact hDdom d hdD x (List.mem_cons_of_mem _ hxt)
          · simp only [List.mem_singleton] at hdh0
            rw [hdh0]
            rcases List.mem_cons.mp hx2 with rfl | hxt
            · exact srLess_asymm hcond
            · have hmem : x ∈ h0 :: t := List.mem_cons_of_mem _ hxt
              have hroot := heapProp_root_min_mem (h0 :: t) hp x hmem
              simpa using hroot
      · rw [if_neg hbetter]
        have hnb : srLess h0 (mkSR q e) = false := by
          cases hv : srLess h0 (mkSR q e)
          · rfl
          · rw [srLess_iff] at hv
            exact absurd (by
              rcases hv with hv | hv
              · exact Or.inl hv
              · exact Or.inr ⟨hv.1.symm, hv.2⟩) hbetter
        refine ⟨hp, ?_, D ++ [mkSR q e], ?_, ?_⟩
        · simp only [List.length_cons] at hlenk ⊢
          omega
        · simp only [List.map_append, List.map_cons, List.map_nil]
          have h1 : (ms.map (mkSR q) ++ [mkSR q e]).Perm
              (((h0 :: t) ++ D) ++ [mkSR q e]) := hDperm.append_right _
          rw [List.append_assoc] at h1
          exact h1
        · intro d hd x hx
          rcases List.mem_append.mp hd with hdD | hdy
          · exact hDdom d hdD x hx
          · simp only [List.mem_singleton] at hdy
            rw [hdy]
            have hroot := heapProp_root_min_mem (h0 :: t) hp x hx
            simp only [List.getD_cons_zero] at hroot
            exact srLe_trans hnb hroot

theorem searchFold_inv (q : String) (k : Int) (hk : 0 < k) :
    ∀ (es ms : List DirEntry) (h : List SearchResult),
      heapProp h →
      h.length = min k.toNat ms.length →
      (∃ D, (ms.map (mkSR q)).Perm (h ++ D)
        ∧ ∀ d ∈ D, ∀ x ∈ h, srLess x d = false) →
      heapProp (es.foldl (searchStep q k) h)
      ∧ (es.foldl (searchStep q k) h).length
          = min k.toNat (ms ++ es.filter (fun e => (fuzzyMatch e.name q).1)).length
      ∧ ∃ D, ((ms ++ es.filter (fun e => (fuzzyMatch e.name q).1)).map (mkSR q)).Perm
            (es.foldl (searchStep q k) h ++ D)
          ∧ ∀ d ∈ D, ∀ x ∈ es.foldl (searchStep q k) h, srLess x d = false := by
  intro es
  induction es with
  | nil =>
    intro ms h hp hlen hD
    simpa using ⟨hp, hlen, hD⟩
  | cons e es ih =>
    intro ms h hp hlen hD
    cases hm : (fuzzyMatch e.name q).1 with
    | false =>
      have hstep : searchStep q k h e = h := searchStep_not_matched q k h e hm
      have := ih ms h hp hlen hD
      simpa [List.foldl_cons, hstep, List.filter_cons, hm] using this
    | true =>
      have hstep := searchStep_inv_matched q k hk e ms h hm hp hlen hD
      obtain ⟨hp', hlen', hD'⟩ := hstep
      have := ih (ms ++ [e]) (searchStep q k h e) hp' (by simpa using hlen') hD'
      simpa [List.foldl_cons, List.filter_cons, hm, List.append_assoc] using this

/-- C1 counterexample input: a root with one child; every name matches the
empty pattern, yet SearchTreeBounded returns nil on the empty query. -/
def ceTree : DirEntry :=
  .mk "r" "r" 0 true [.mk "r2" "a" 1 false [] 0 true] 0 true

/-- C1 as stated is false for the empty query: the child of ceTree matches
the empty pattern (fuzzyMatch returns true on it), so min(maxResults,
matching nodes) = 1, but SearchTreeBounded returns the empty sequence. -/
theorem searchTreeBounded_empty_query_counterexample :
    ¬ ((SearchTreeBounded (some ceTree) "" 1).length
        = min ((1 : Int)).toNat (matchesOf ceTree "").length) := by
  decide

/-- C1 amended (nonempty queries): SearchTreeBounded returns exactly
min(maxResults, number of matching nodes) results, ordered by score
descending with size descending among equal scores; every returned result
is one of the matching nodes with its fuzzyMatch score; and the matching
nodes split into the returned results plus discarded ones, each of which
scores no higher than every returned result. -/
theorem searchTreeBounded_topK (t : DirEntry) (q : String) (k : Int)
    (hq : q ≠ "") (hk : 0 < k) :
    (SearchTreeBounded (some t) q k).length = min k.toNat (matchesOf t q).length
    ∧ (SearchTreeBounded (some t) q k).Pairwise
        (fun a b => b.score < a.score
          ∨ (b.score = a.score ∧ b.entry.size ≤ a.entry.size))
    ∧ (∀ r ∈ SearchTreeBounded (some t) q k, r ∈ (matchesOf t q).map (mkSR q))
    ∧ ∃ D, ((matchesOf t q).map (mkSR q)).Perm (SearchTreeBounded (some t) q k ++ D)
        ∧ ∀ d ∈ D, ∀ r ∈ SearchTreeBounded (some t) q k, d.score ≤ r.score := by
  have hguard : ¬ (q = "" ∨ (some t : Option DirEntry).isNone = true ∨ k ≤ 0) := by
    push_neg
    exact ⟨hq, by simp, by omega⟩
  have hST : SearchTreeBounded (some t) q k
      = (drainHeap ((allForest t.children).foldl (searchStep q k) [])).reverse := by
    unfold SearchTreeBounded
    rw [if_neg hguard]
  have hfold := searchFold_inv q k hk (allForest t.children) [] []
    (fun p c hc _ => by simp at hc)
    (by simp)
    ⟨[], by simp, by simp⟩
  have hHp := hfold.1
  have hHlen := hfold.2.1
  obtain ⟨D, hDperm, hDdom⟩ := hfold.2.2
  have hdrain := drainHeap_spec ((allForest t.children).foldl (searchStep q k) []) hHp
  have hmatches : matchesOf t q
      = [] ++ (allForest t.children).filter (fun e => (fuzzyMatch e.name q).1) := by
    simp [matchesOf]
  refine ⟨?_, ?_, ?_, ?_⟩
  · rw [hST, List.length_reverse, hdrain.1.length_eq, hHlen, hmatches]
  · rw [hST, List.pairwise_reverse]
    refine hdrain.2.imp ?_
    intro a b hab
    rw [srLess_false_iff] at hab
    exact hab
  · intro r hr
    rw [hST, List.mem_reverse] at hr
    have hrH : r ∈ (allForest t.children).foldl (searchStep q k) [] :=
      hdrain.1.mem_iff.mp hr
    have : r ∈ ((allForest t.children).foldl (searchStep q k) []) ++ D :=
      List.mem_append.mpr (Or.inl hrH)
    have := hDperm.mem_iff.mpr this
    rw [hmatches] at *
    simpa using this
  · refine ⟨D, ?_, ?_⟩
    · rw [hST, hmatches]
      have h1 : (((allForest t.children).filter
            (fun e => (fuzzyMatch e.name q).1)).map (mkSR q)).Perm
          (((allForest t.children).foldl (searchStep q k) []) ++ D) := by
        simpa using hDperm
      have h2 : (((allForest t.children).foldl (searchStep q k) []) ++ D).Perm
          ((drainHeap ((allForest t.children).foldl (searchStep q k) [])).reverse
            ++ D) := by
        refine List.Perm.append_right D ?_
        exact ((List.reverse_perm _).trans hdrain.1).symm
      simpa using h1.trans h2
    · intro d hd r hr
      rw [hST, List.mem_reverse] at hr
      have hrH : r ∈ (allForest t.children).foldl (searchStep q k) [] :=
        hdrain.1.mem_iff.mp hr
      have := hDdom d hd r hrH
      rw [srLess_false_iff] at this
      omega

theorem searchTreeBounded_topK_witness :
    ("a" : String) ≠ "" ∧ (0 : Int) < 1
    ∧ (SearchTreeBounded (some sampleTree) "a" 1).length
        = min (1 : Int).toNat (matchesOf sampleTree "a").length :=
  ⟨by decide, by decide,
   (searchTreeBounded_topK sampleTree "a" 1 (by decide) (by decide)).1⟩
